import Mathlib

/-!
Shallow embedding of the `rusmat` matrix/vector library and verification of
its specification claims.

Conventions of the embedding:
* The generic floating-point element type `T : Float` of the Rust source is
  idealized as `ℚ` (a linear ordered field with decidable equality); no
  claim in scope depends on rounding, infinities or NaN.
* A Rust `panic!` / failed `assert!` is modelled by returning `none` from an
  `Option`-valued function; a normal return of `v` is `some v`.
* `Vec<T>` buffers are modelled as `List ℚ`; raw pointers of the slice types
  are modelled as offsets into the source buffer.
* `Rc<RefCell<...>>` interior mutability is modelled by explicit state
  passing: `set` returns the updated matrix.  All functions are pure, which
  also renders the "never mutates its receiver" part of the transpose
  contract: `transpose` only reads its argument and allocates a fresh buffer
  (in the source it writes into a clone of the data vector).
-/

namespace Rusmat

/-- Storage pattern of a matrix: column major or row major (data_struct.rs `Axes`). -/
inductive Axes where
  | Column
  | Row
deriving DecidableEq, Repr

/-- Flip the storage axis (data_struct.rs `Axes::t`). -/
def Axes.t : Axes → Axes
  | .Column => .Row
  | .Row => .Column

/-- Matrix dimensions: the viewport `Range<(usize,usize)>` of data_struct.rs `Dim`.
The Rust `Range` field names `start`/`end` become `start`/`stop` (`end` is a
Lean keyword). -/
structure Dim where
  start : Nat × Nat
  stop : Nat × Nat
deriving DecidableEq, Repr

/-- Full-range viewport (data_struct.rs `Dim::full`). -/
def Dim.full (r c : Nat) : Dim := ⟨(0, 0), (r, c)⟩

/-- Logical row count of a viewport (data_struct.rs `Dim::nrows`). -/
def Dim.nrows (d : Dim) : Nat := d.stop.1 - d.start.1

/-- Logical column count of a viewport (data_struct.rs `Dim::ncols`). -/
def Dim.ncols (d : Dim) : Nat := d.stop.2 - d.start.2

/-- Starting row of a viewport (data_struct.rs `Dim::start_row`). -/
def Dim.start_row (d : Dim) : Nat := d.start.1

/-- Starting column of a viewport (data_struct.rs `Dim::start_col`). -/
def Dim.start_col (d : Dim) : Nat := d.start.2

/-- Matrix backing storage (data_struct.rs `MatData`): physical dimensions
`r`, `c` and the flat buffer `d`. -/
structure MatData where
  r : Nat
  c : Nat
  d : List ℚ
deriving DecidableEq, Repr

/-- The matrix structure of data_struct.rs: shared data, viewport, axis. -/
structure Matrix where
  data : MatData
  vdim : Dim
  axis : Axes
deriving DecidableEq, Repr

/-- Borrow the underlying buffer (data_struct.rs `MatData::vals`). -/
def Matrix.vals (M : Matrix) : List ℚ := M.data.d

/-- Secondary offset re-indexing (data_struct.rs `Matrix::tridx`). -/
def Matrix.tridx (M : Matrix) (idx : Nat) : Nat :=
  idx % M.data.c * M.data.r + idx / M.data.c

/-- Coordinate-to-offset mapping (data_struct.rs `Matrix::index`).
In the `Column` arm the source rebinds `(r, c)` to
`(start_col + r, start_row + c)` and calls `tridx(c * data.c + r)`;
in the `Row` arm it rebinds `(r, c)` to `(start_row + c, start_col + r)`
and returns `c * data.r + r`. -/
def Matrix.index (M : Matrix) (r c : Nat) : Nat :=
  match M.axis with
  | .Column => M.tridx ((M.vdim.start_row + c) * M.data.c + (M.vdim.start_col + r))
  | .Row => (M.vdim.start_col + r) * M.data.r + (M.vdim.start_row + c)

/-- Axis-dependent row count accessor (data_struct.rs `Matrix::nrows`). -/
def Matrix.nrows (M : Matrix) : Nat :=
  match M.axis with
  | .Column => M.vdim.ncols
  | .Row => M.vdim.nrows

/-- Axis-dependent column count accessor (data_struct.rs `Matrix::ncols`). -/
def Matrix.ncols (M : Matrix) : Nat :=
  match M.axis with
  | .Column => M.vdim.nrows
  | .Row => M.vdim.ncols

/-- Shape query (data_struct.rs `Features::shape for Matrix`). -/
def Matrix.shape (M : Matrix) : Nat × Nat := (M.vdim.nrows, M.vdim.ncols)

/-- Element read (data_struct.rs `Matrix::get`): asserts the flat index is
inside the buffer (modelled as `none` on failure), then reads the buffer. -/
def Matrix.get (M : Matrix) (rid cid : Nat) : Option ℚ :=
  let i := M.index rid cid
  if i < M.vals.length then M.vals[i]? else none

/-- Element write (data_struct.rs `Matrix::set`): asserts the flat index is
inside the buffer, then overwrites that buffer cell in place (modelled by
returning the updated matrix). -/
def Matrix.set (M : Matrix) (rid cid : Nat) (v : ℚ) : Option Matrix :=
  let i := M.index rid cid
  if i < M.vals.length then
    some { M with data := { M.data with d := M.vals.set i v } }
  else none

/-- Constructor from a flat vector (data_struct.rs `Matrix::from_vec`):
asserts `data.len() == nrow * ncol`, default axis `Column`, full viewport. -/
def Matrix.from_vec (data : List ℚ) (nrow ncol : Nat) : Option Matrix :=
  if data.length = nrow * ncol then
    some { data := ⟨nrow, ncol, data⟩, vdim := Dim.full nrow ncol, axis := .Column }
  else none

/-- Constructor from a generator function (data_struct.rs `Matrix::from_fn`):
pushes `f i j` for `i` in row order, `j` in column order. -/
def Matrix.from_fn (nrow ncol : Nat) (f : Nat → Nat → ℚ) : Matrix :=
  { data := ⟨nrow, ncol, (List.range nrow).flatMap (fun i => (List.range ncol).map (f i))⟩,
    vdim := Dim.full nrow ncol, axis := .Column }

/-- All-ones matrix (data_struct.rs `Matrix::unit`). -/
def Matrix.unit (nrow ncol : Nat) : Matrix :=
  { data := ⟨nrow, ncol, List.replicate (nrow * ncol) 1⟩,
    vdim := Dim.full nrow ncol, axis := .Column }

/-- All-zeros matrix (data_struct.rs `Matrix::zero`). -/
def Matrix.zero (nrow ncol : Nat) : Matrix :=
  { data := ⟨nrow, ncol, List.replicate (nrow * ncol) 0⟩,
    vdim := Dim.full nrow ncol, axis := .Column }

/-- Diagonal matrix (data_struct.rs `Matrix::diag`): an `n × n` zero matrix,
then `set (i, i) := vec[i]` for each `i < n`.  The loop is a monadic fold so
that a panicking `set` propagates as `none`. -/
def Matrix.diag (vec : List ℚ) : Option Matrix :=
  let n := vec.length
  let mat : Matrix :=
    { data := ⟨n, n, List.replicate (n * n) 0⟩, vdim := Dim.full n n, axis := .Column }
  (List.range n).foldlM (fun M i => M.set i i (vec.getD i 0)) mat

/-- Identity matrix (data_struct.rs `Matrix::eye`). -/
def Matrix.eye (n : Nat) : Option Matrix :=
  Matrix.diag (List.replicate n 1)

/-- The buffer produced by `diag`'s write loop: every `set (i, i)` resolves
to flat offset `i * n + i` on the fresh `n` by `n` zero matrix. -/
def diagBuf (v : List ℚ) : List ℚ :=
  (List.range v.length).foldl
    (fun bb i => bb.set (i * v.length + i) (v.getD i 0))
    (List.replicate (v.length * v.length) 0)

/-- Transpose (data_struct.rs `Features::transpose for Matrix`): checks
`nr * nc == len` (assert) and that `nr * nc - 1` does not underflow (the
source computes `l = nr * nc - 1` on `usize` and then indexes with `% l`,
which panics when `nr * nc == 0`), then writes `vals[(i * mult) % l]` into
position `i` of a clone of the buffer for `i < l`, leaving the last element
in place.  The multiplier is `nc` in the `Column` arm and `nr` in the `Row`
arm; the new physical dimensions are `(r, c) = (nc, nr)` and the new
viewport is `full(nrows, ncols)` for `Column` and `full(ncols, nrows)` for
`Row`; the axis is flipped. -/
def Matrix.transpose (M : Matrix) : Option Matrix :=
  let nr := M.nrows
  let nc := M.ncols
  if nr * nc = M.vals.length ∧ nr * nc ≠ 0 then
    let l := nr * nc - 1
    match M.axis with
    | .Column =>
        some { data := ⟨nc, nr,
                 (List.range M.vals.length).map
                   (fun i => if i < l then M.vals.getD (i * nc % l) 0 else M.vals.getD i 0)⟩,
               vdim := Dim.full M.nrows M.ncols, axis := M.axis.t }
    | .Row =>
        some { data := ⟨nc, nr,
                 (List.range M.vals.length).map
                   (fun i => if i < l then M.vals.getD (i * nr % l) 0 else M.vals.getD i 0)⟩,
               vdim := Dim.full M.ncols M.nrows, axis := M.axis.t }
  else none

/-- The buffer permutation performed by one `transpose` call: position `i`
receives the source cell `(i * mult) % (len - 1)` for `i < len - 1`, and the
last cell stays in place.  `Matrix.transpose` applies it with multiplier
`ncols` on a `Column`-axis matrix and `nrows` on a `Row`-axis matrix. -/
def permBuf (mult : Nat) (d : List ℚ) : List ℚ :=
  (List.range d.length).map
    (fun i => if i < d.length - 1 then d.getD (i * mult % (d.length - 1)) 0 else d.getD i 0)

/-- Iterator state for matrix-wide iteration (data_struct.rs
`MatIntoIterator`): the matrix and the current `(row, col)` position. -/
structure MatIntoIterator where
  mat : Matrix
  index : Nat × Nat

/-- One step of the iterator (data_struct.rs `Iterator for MatIntoIterator`):
ends when the column position reaches `vdim.ncols()`; otherwise yields
`get(row, col)` and advances the ROW position first, wrapping to the next
column when the row position reaches `vdim.nrows()`. -/
def MatIntoIterator.next (s : MatIntoIterator) : Option ℚ × MatIntoIterator :=
  if s.index.2 ≥ s.mat.vdim.ncols then (none, s)
  else
    let val := s.mat.get s.index.1 s.index.2
    if s.index.1 + 1 ≥ s.mat.vdim.nrows then (val, ⟨s.mat, (0, s.index.2 + 1)⟩)
    else (val, ⟨s.mat, (s.index.1 + 1, s.index.2)⟩)

/-- Drive the iterator as a `for` loop does: call `next` until it returns
`None` (fuel bounds the number of calls; callers supply enough fuel for the
loop to reach its `None`). -/
def runIter : Nat → MatIntoIterator → List ℚ
  | 0, _ => []
  | fuel + 1, s =>
      match s.next with
      | (none, _) => []
      | (some v, s1) => v :: runIter fuel s1

/-- The full element sequence produced by `into_iter` on a matrix: the
`for` loop performs `nrows * ncols` yields plus one final `None` call. -/
def Matrix.toList (M : Matrix) : List ℚ :=
  runIter (M.vdim.nrows * M.vdim.ncols + 1) ⟨M, (0, 0)⟩

/-- The buffer cell a coordinate resolves to: the value `get` returns when
its bounds assertion passes (`List.getD` with an irrelevant default). -/
def Matrix.elem (M : Matrix) (i j : Nat) : ℚ :=
  M.vals.getD (M.index i j) 0

/-- A matrix as produced by every constructor of data_struct.rs
(`from_vec`, `from_fn`, `unit`, `zero`, `diag`, `eye`): axis `Column`, full
viewport over the physical dimensions, buffer length `r * c`. -/
def Matrix.Constructed (M : Matrix) : Prop :=
  M.axis = .Column ∧ M.vdim = Dim.full M.data.r M.data.c ∧
    M.vals.length = M.data.r * M.data.c

instance (M : Matrix) : Decidable M.Constructed := by
  unfold Matrix.Constructed
  infer_instance

/-- A vector (vector_data.rs `Vector`): an owned flat buffer. -/
structure Vector where
  data : List ℚ
deriving DecidableEq, Repr

/-- Length query (vector_data.rs `Vector::get_size`). -/
def Vector.get_size (v : Vector) : Nat := v.data.length

/-- Emptiness query (vector_data.rs `Vector::is_empty`). -/
def Vector.is_empty (v : Vector) : Bool := v.data.length = 0

/-- Elementwise transform (vector_data.rs `Vector::apply`). -/
def Vector.apply (v : Vector) (f : ℚ → ℚ) : Vector := ⟨v.data.map f⟩

/-- The value of `f32::MIN` (Rust `T::min_value()` for the `f32` element
type used by the library): the most negative finite single-precision value,
`-(2 - 2^-23) * 2^127 = -(2^128 - 2^104)`, written as an explicit numeral
so that concrete comparisons against it evaluate. -/
def fMinValue : ℚ := -340282346638528859811704183484516925440

/-- First index satisfying a predicate (Rust `Iterator::position`). -/
def position (p : ℚ → Bool) : List ℚ → Option Nat
  | [] => none
  | x :: xs => if p x then some 0 else (position p xs).map (· + 1)

/-- Argmax (vector_data.rs `Vector::argsort`, the spec's `argmax_position`):
folds `max` from `T::min_value()` over the data, then takes the position of
the first element equal to that maximum; the `unwrap` of a missing position
(empty input) panics, modelled as `none`. -/
def Vector.argsort (v : Vector) : Option Nat :=
  let m := v.data.foldl (fun x y => max x y) fMinValue
  position (fun x => x == m) v.data

namespace MatrixFile

/-- Storage axis of the matrix.rs `Matrix` variant (matrix.rs `Axis`). -/
inductive Axis where
  | Column
  | Row
deriving DecidableEq, Repr

/-- The competing matrix structure of matrix.rs: a `Vector` buffer, logical
row and column counts, major axis and row stride. -/
structure Matrix where
  data : Vector
  rows : Nat
  cols : Nat
  mode : Axis
  strd : Nat
deriving DecidableEq, Repr

/-- Row count accessor (matrix.rs `Matrix::get_rows`). -/
def Matrix.get_rows (m : Matrix) : Nat := m.rows

/-- Column count accessor (matrix.rs `Matrix::get_cols`). -/
def Matrix.get_cols (m : Matrix) : Nat := m.cols

/-- Buffer accessor (matrix.rs `Matrix::get_data`). -/
def Matrix.get_data (m : Matrix) : List ℚ := m.data.data

/-- Constructor (matrix.rs `Matrix::from_vec`): asserts
`rows * cols == dat.len()`; default mode `Row`, stride `cols`. -/
def Matrix.from_vec (dat : List ℚ) (rows cols : Nat) : Option Matrix :=
  if rows * cols = dat.length then
    some { data := ⟨dat⟩, rows := rows, cols := cols, mode := .Row, strd := cols }
  else none

end MatrixFile

/-- Immutable matrix slice (slice.rs `MatrixSlice`): the raw pointer is
modelled as the offset `pt` into the source matrix buffer. -/
structure MatrixSlice where
  pt : Nat
  nr : Nat
  nc : Nat
  rs : Nat
deriving DecidableEq, Repr

/-- Slice construction (slice.rs `MatrixSlice::from_matrix`): the source
asserts `begin[0] + nr <= nr` and `begin[1] + nc <= nc` (comparing against
the slice's own dimensions), then points at
`data[begin[0] * mat.get_cols() + begin[1]]` without a bounds check
(`get_unchecked`) with row stride `mat.get_cols()`. -/
def MatrixSlice.from_matrix (mat : MatrixFile.Matrix) (begin_ : Nat × Nat)
    (nr nc : Nat) : Option MatrixSlice :=
  if begin_.1 + nr ≤ nr ∧ begin_.2 + nc ≤ nc then
    some ⟨begin_.1 * mat.get_cols + begin_.2, nr, nc, mat.get_cols⟩
  else none

/-- Mutable matrix slice (slice.rs `MatrixMutSlice`), pointer as offset. -/
structure MatrixMutSlice where
  pt : Nat
  nr : Nat
  nc : Nat
  rs : Nat
deriving DecidableEq, Repr

/-- Mutable slice construction (slice.rs `MatrixMutSlice::from_matrix`):
identical validation to the immutable variant. -/
def MatrixMutSlice.from_matrix (mat : MatrixFile.Matrix) (begin_ : Nat × Nat)
    (nr nc : Nat) : Option MatrixMutSlice :=
  if begin_.1 + nr ≤ nr ∧ begin_.2 + nc ≤ nc then
    some ⟨begin_.1 * mat.get_cols + begin_.2, nr, nc, mat.get_cols⟩
  else none

/-! Helper lemmas about the coordinate mapping of a freshly constructed
(column-axis, full-viewport) matrix. -/

/-- Closed form of `index` on a constructor-shaped matrix: coordinate
`(i, j)` resolves to flat offset `(i % c) * r + (j + i / c)`. -/
theorem index_column (R C : Nat) (d : List ℚ) (i j : Nat) (hC : 0 < C) :
    (Matrix.mk ⟨R, C, d⟩ (Dim.full R C) .Column).index i j =
      i % C * R + (j + i / C) := by
  show Matrix.tridx _ ((0 + j) * C + (0 + i)) = _
  unfold Matrix.tridx
  simp only [Nat.zero_add]
  have hmod : (j * C + i) % C = i % C := by
    rw [Nat.add_comm]
    exact Nat.add_mul_mod_self_right i j C
  have hdiv : (j * C + i) / C = j + i / C := by
    rw [Nat.add_comm, Nat.add_mul_div_right i j hC]
    omega
  rw [hmod, hdiv]

/-- The resolved offset of an in-range coordinate always lies inside the
`R * C` buffer. -/
theorem index_column_lt (R C i j : Nat) (hi : i < R) (hj : j < C) :
    i % C * R + (j + i / C) < R * C := by
  have hC : 0 < C := Nat.pos_of_ne_zero (by omega)
  have hdm : C * (i / C) + i % C = i := Nat.div_add_mod i C
  have hsC : i % C < C := Nat.mod_lt _ hC
  set s := i % C with hs
  set q := i / C with hq
  obtain ⟨t, ht⟩ : ∃ t, R = C * q + s + 1 + t := by
    refine ⟨R - (C * q + s + 1), ?_⟩
    have : C * q + s + 1 ≤ R := by rw [hdm]; exact hi
    omega
  subst ht
  have hA1 : q * (s * C + 1) ≤ q * (C * C) := by
    refine Nat.mul_le_mul_left q ?_
    have h1 : (s + 1) * C ≤ C * C := Nat.mul_le_mul_right C hsC
    have h2 : (s + 1) * C = s * C + C := by ring
    have h3 : s * C + 1 ≤ s * C + C := by omega
    omega
  have hA2 : s * (s + 1) ≤ s * C := Nat.mul_le_mul_left s hsC
  have hA3 : t * s ≤ t * C := Nat.mul_le_mul_left t (Nat.le_of_lt hsC)
  nlinarith [hA1, hA2, hA3, hj]

/-- On a constructor-shaped matrix, an in-range `get` succeeds and returns
the buffer cell `elem` points at. -/
theorem get_column_eq (R C : Nat) (d : List ℚ) (i j : Nat)
    (hd : d.length = R * C) (hi : i < R) (hj : j < C) :
    (Matrix.mk ⟨R, C, d⟩ (Dim.full R C) .Column).get i j =
      some ((Matrix.mk ⟨R, C, d⟩ (Dim.full R C) .Column).elem i j) := by
  have hC : 0 < C := Nat.pos_of_ne_zero (by omega)
  have hix := index_column R C d i j hC
  have hlt : (Matrix.mk ⟨R, C, d⟩ (Dim.full R C) .Column).index i j < d.length := by
    rw [hix, hd]; exact index_column_lt R C i j hi hj
  unfold Matrix.get Matrix.elem
  simp only [Matrix.vals] at hlt ⊢
  rw [if_pos hlt, List.getD_eq_getElem d 0 hlt, List.getElem?_eq_getElem hlt]

/-! C1, C3: evaluations of the indexing scheme at the claims' inputs. -/

/-- C1 (code bug): `from_vec([0,1,2,3,4,5], 2, 3)` is a constructed matrix
whose `get(1, 2)` returns `Some 4` — the buffer cell at flat offset 4 —
whereas row-major semantics of the input vector demands
`data[1*3+2] = data[5] = 5`.  The coordinate map resolves `(i, j)` to
`(i % ncol) * nrow + j + i / ncol`, which is not the row-major offset
`i * ncol + j` unless the matrix is square. -/
theorem c1_row_major_violated :
    Matrix.from_vec [0, 1, 2, 3, 4, 5] 2 3 =
        some (Matrix.mk ⟨2, 3, [0, 1, 2, 3, 4, 5]⟩ (Dim.full 2 3) .Column) ∧
      (Matrix.mk ⟨2, 3, [0, 1, 2, 3, 4, 5]⟩ (Dim.full 2 3) .Column).get 1 2 = some 4 ∧
      ([0, 1, 2, 3, 4, 5] : List ℚ)[1 * 3 + 2]? = some 5 ∧
      (Matrix.mk ⟨2, 3, [0, 1, 2, 3, 4, 5]⟩ (Dim.full 2 3) .Column).get 1 2 ≠
        some 5 := by
  refine ⟨by decide, by decide, by decide, by decide⟩

/-- C3 (code bug): on the 3 by 3 matrix built from `[1..9]`, the coordinate
`(0, 3)` is out of range (`3 >= ncols`), yet `get(0, 3)` succeeds and reads
buffer cell 3 (the logical element `(1, 0)`), and `set(0, 3, 99)` succeeds
and overwrites that same cell, observable afterwards as `get(1, 0) = 99`.
The code only asserts that the computed flat offset is inside the buffer,
not that the coordinate is inside the logical shape. -/
theorem c3_out_of_range_access_succeeds :
    Matrix.from_vec [1, 2, 3, 4, 5, 6, 7, 8, 9] 3 3 =
        some (Matrix.mk ⟨3, 3, [1, 2, 3, 4, 5, 6, 7, 8, 9]⟩ (Dim.full 3 3) .Column) ∧
      (Matrix.mk ⟨3, 3, [1, 2, 3, 4, 5, 6, 7, 8, 9]⟩ (Dim.full 3 3) .Column).shape = (3, 3) ∧
      (Matrix.mk ⟨3, 3, [1, 2, 3, 4, 5, 6, 7, 8, 9]⟩ (Dim.full 3 3) .Column).get 0 3 =
        some 4 ∧
      ((Matrix.mk ⟨3, 3, [1, 2, 3, 4, 5, 6, 7, 8, 9]⟩ (Dim.full 3 3) .Column).set 0 3 99).bind
          (fun M2 => M2.get 1 0) = some 99 := by
  refine ⟨by decide, by decide, by decide, by decide⟩

/-- C5 (code bug): slice construction never consults the source matrix's
dimensions.  On the 3 by 3 matrix, the wildly oversized request
`begin = (0,0), nr = nc = 100` is accepted by both slice constructors, while
the perfectly valid request `begin = (1,1), nr = nc = 2` is rejected: the
source asserts `begin[0] + nr <= nr` (against the slice's own row count,
which only holds when `begin[0] == 0`) instead of
`begin[0] + nr <= matrix.nrows()`. -/
theorem c5_slice_validation_broken :
    MatrixFile.Matrix.from_vec [1, 2, 3, 4, 5, 6, 7, 8, 9] 3 3 =
        some (MatrixFile.Matrix.mk ⟨[1, 2, 3, 4, 5, 6, 7, 8, 9]⟩ 3 3 .Row 3) ∧
      MatrixSlice.from_matrix
          (MatrixFile.Matrix.mk ⟨[1, 2, 3, 4, 5, 6, 7, 8, 9]⟩ 3 3 .Row 3) (0, 0) 100 100 =
        some ⟨0, 100, 100, 3⟩ ∧
      MatrixSlice.from_matrix
          (MatrixFile.Matrix.mk ⟨[1, 2, 3, 4, 5, 6, 7, 8, 9]⟩ 3 3 .Row 3) (1, 1) 2 2 =
        none ∧
      MatrixMutSlice.from_matrix
          (MatrixFile.Matrix.mk ⟨[1, 2, 3, 4, 5, 6, 7, 8, 9]⟩ 3 3 .Row 3) (0, 0) 100 100 =
        some ⟨0, 100, 100, 3⟩ ∧
      MatrixMutSlice.from_matrix
          (MatrixFile.Matrix.mk ⟨[1, 2, 3, 4, 5, 6, 7, 8, 9]⟩ 3 3 .Row 3) (1, 1) 2 2 =
        none := by
  refine ⟨by decide, by decide, by decide, by decide, by decide⟩

/-! Transpose: closed forms of one transpose step and inversion of the
buffer permutation. -/

theorem permBuf_length (mult : Nat) (d : List ℚ) : (permBuf mult d).length = d.length := by
  simp [permBuf]

theorem permBuf_getElem? (mult : Nat) (d : List ℚ) (m : Nat) (hm : m < d.length) :
    (permBuf mult d)[m]? =
      some (if m < d.length - 1 then d.getD (m * mult % (d.length - 1)) 0
        else d.getD m 0) := by
  unfold permBuf
  simp [List.getElem?_map, List.getElem?_range, hm]

theorem permBuf_getD (mult : Nat) (d : List ℚ) (m : Nat) (hm : m < d.length) :
    (permBuf mult d).getD m 0 =
      if m < d.length - 1 then d.getD (m * mult % (d.length - 1)) 0
        else d.getD m 0 := by
  have h2 : m < (permBuf mult d).length := by rw [permBuf_length]; exact hm
  have h3 := permBuf_getElem? mult d m hm
  rw [List.getElem?_eq_getElem h2] at h3
  rw [List.getD_eq_getElem _ 0 h2]
  exact Option.some.inj h3

/-- Applying the transpose permutation with multiplier `A` and then with
multiplier `B` restores the buffer, provided `A * B = len`: the two walks
multiply indices by `A * B = (len - 1) + 1 ≡ 1` modulo `len - 1`. -/
theorem permBuf_inverse (A B : Nat) (d : List ℚ) (hAB : A * B = d.length)
    (h0 : d ≠ []) : permBuf B (permBuf A d) = d := by
  have hlen : 0 < d.length := List.length_pos.mpr h0
  have hpl : (permBuf A d).length = d.length := permBuf_length A d
  set l := d.length - 1 with hl
  apply List.ext_getElem (by rw [permBuf_length, permBuf_length])
  intro k hk1 hk2
  have hk : k < d.length := hk2
  rw [← List.getD_eq_getElem _ 0 hk1, ← List.getD_eq_getElem d 0 hk2]
  have hout : (permBuf B (permBuf A d)).getD k 0 =
      if k < l then (permBuf A d).getD (k * B % l) 0
        else (permBuf A d).getD k 0 := by
    have h4 := permBuf_getD B (permBuf A d) k (by rw [hpl]; exact hk)
    rwa [hpl] at h4
  rw [hout]
  by_cases hkl : k < l
  · rw [if_pos hkl]
    have hlpos : 0 < l := by omega
    have hm : k * B % l < l := Nat.mod_lt _ hlpos
    have hm2 : k * B % l < d.length := by omega
    rw [permBuf_getD A d _ hm2, if_pos hm]
    have harith : k * B % l * A % l = k := by
      rw [Nat.mod_mul_mod]
      have h1 : k * B * A = l * k + k := by
        have hBA : B * A = l + 1 := by rw [Nat.mul_comm]; omega
        calc k * B * A = k * (B * A) := by ring
          _ = k * (l + 1) := by rw [hBA]
          _ = l * k + k := by ring
      rw [h1, Nat.mul_add_mod l k k, Nat.mod_eq_of_lt hkl]
    rw [harith]
  · rw [if_neg hkl, permBuf_getD A d k hk, if_neg hkl]

/-- Closed form of `transpose` on a constructor-shaped (column-axis) matrix:
same physical buffer dimensions, buffer permuted with multiplier `R`,
viewport flipped to `full(C, R)`, axis flipped to `Row`. -/
theorem transpose_column_eq (R C : Nat) (d : List ℚ) (hd : d.length = R * C)
    (h0 : d ≠ []) :
    (Matrix.mk ⟨R, C, d⟩ (Dim.full R C) .Column).transpose =
      some (Matrix.mk ⟨R, C, permBuf R d⟩ (Dim.full C R) .Row) := by
  have hlen : 0 < d.length := List.length_pos.mpr h0
  have hCR : C * R = d.length := by rw [hd]; ring
  unfold Matrix.transpose
  simp only [Matrix.nrows, Matrix.ncols, Matrix.vals, Dim.full, Dim.nrows, Dim.ncols,
    Axes.t, Nat.sub_zero]
  rw [if_pos ⟨hCR, by rw [hCR]; omega⟩]
  have hbuf : (List.range d.length).map
      (fun i => if i < C * R - 1 then d.getD (i * R % (C * R - 1)) 0 else d.getD i 0) =
        permBuf R d := by
    unfold permBuf
    rw [hCR]
  rw [hbuf]

/-- Closed form of `transpose` on the matrix produced by one column-axis
transpose (row axis, viewport `full(C, R)`): buffer permuted with
multiplier `C`, viewport flipped back to `full(R, C)`, axis `Column`. -/
theorem transpose_row_eq (R C : Nat) (d : List ℚ) (hd : d.length = R * C)
    (h0 : d ≠ []) :
    (Matrix.mk ⟨R, C, d⟩ (Dim.full C R) .Row).transpose =
      some (Matrix.mk ⟨R, C, permBuf C d⟩ (Dim.full R C) .Column) := by
  have hlen : 0 < d.length := List.length_pos.mpr h0
  have hCR : C * R = d.length := by rw [hd]; ring
  unfold Matrix.transpose
  simp only [Matrix.nrows, Matrix.ncols, Matrix.vals, Dim.full, Dim.nrows, Dim.ncols,
    Axes.t, Nat.sub_zero]
  rw [if_pos ⟨hCR, by rw [hCR]; omega⟩]
  have hbuf : (List.range d.length).map
      (fun i => if i < C * R - 1 then d.getD (i * C % (C * R - 1)) 0 else d.getD i 0) =
        permBuf C d := by
    unfold permBuf
    rw [hCR]
  rw [hbuf]

/-! C2, C8: the transpose contract. -/

/-- C2 counterexample: the empty matrix is constructed by
`from_vec([], 0, 0)`, yet `transpose` fails on it (the source computes
`l = nr * nc - 1` on `usize`, which underflows, and then indexes the empty
buffer), so `transpose(transpose(M))` does not return a matrix equal to `M`
for every constructed matrix. -/
theorem c2_empty_transpose_fails :
    Matrix.from_vec ([] : List ℚ) 0 0 =
        some (Matrix.mk ⟨0, 0, []⟩ (Dim.full 0 0) .Column) ∧
      (Matrix.mk ⟨0, 0, ([] : List ℚ)⟩ (Dim.full 0 0) .Column).transpose.bind
          Matrix.transpose = none := by
  refine ⟨by decide, by decide⟩

/-- C2 (amended): for every constructed matrix with at least one element,
`transpose(transpose(M))` succeeds and is structurally equal to `M` (hence
element-wise equal, with the same shape).  `transpose` reads its receiver
immutably and writes a fresh clone of the buffer, so it never mutates the
receiver; in this pure embedding it is a function of the receiver. -/
theorem c2_double_transpose_id (M : Matrix) (hM : M.Constructed)
    (h0 : M.vals ≠ []) : M.transpose.bind Matrix.transpose = some M := by
  obtain ⟨⟨R, C, d⟩, vdim, axis⟩ := M
  obtain ⟨hax, hvd, hlen⟩ := hM
  simp only [Matrix.vals] at h0 hlen
  simp only at hax hvd
  subst hax
  subst hvd
  have hperm_len : (permBuf R d).length = R * C := by rw [permBuf_length]; exact hlen
  have hperm_ne : permBuf R d ≠ [] := by
    intro h
    apply h0
    have := permBuf_length R d
    rw [h] at this
    exact List.eq_nil_of_length_eq_zero this.symm
  rw [transpose_column_eq R C d hlen h0, Option.some_bind,
    transpose_row_eq R C (permBuf R d) hperm_len hperm_ne,
    permBuf_inverse R C d (hlen.symm) h0]

/-- C2 witness. -/
theorem c2_double_transpose_id_witness :
    (Matrix.mk ⟨2, 3, [1, 2, 3, 4, 5, 6]⟩ (Dim.full 2 3) .Column).transpose.bind
        Matrix.transpose =
      some (Matrix.mk ⟨2, 3, [1, 2, 3, 4, 5, 6]⟩ (Dim.full 2 3) .Column) :=
  c2_double_transpose_id _ (by decide) (by decide)

/-- C8 counterexample: for the constructed 2 by 3 matrix,
`shape(transpose(M)) = (3, 2)` while `(ncols(M), nrows(M)) = (2, 3)`: the
accessors `ncols`/`nrows` are themselves axis-swapped on a constructed
(column-axis) matrix, so the claimed equation fails for every non-square
shape. -/
theorem c8_shape_counterexample :
    Matrix.from_vec [1, 2, 3, 4, 5, 6] 2 3 =
        some (Matrix.mk ⟨2, 3, [1, 2, 3, 4, 5, 6]⟩ (Dim.full 2 3) .Column) ∧
      (Matrix.mk ⟨2, 3, ([1, 2, 3, 4, 5, 6] : List ℚ)⟩ (Dim.full 2 3) .Column).transpose.map
          Matrix.shape = some (3, 2) ∧
      ((Matrix.mk ⟨2, 3, ([1, 2, 3, 4, 5, 6] : List ℚ)⟩ (Dim.full 2 3) .Column).ncols,
          (Matrix.mk ⟨2, 3, ([1, 2, 3, 4, 5, 6] : List ℚ)⟩ (Dim.full 2 3) .Column).nrows) =
        (2, 3) ∧
      (Matrix.mk ⟨2, 3, ([1, 2, 3, 4, 5, 6] : List ℚ)⟩ (Dim.full 2 3) .Column).transpose.map
          Matrix.shape ≠
        some ((Matrix.mk ⟨2, 3, ([1, 2, 3, 4, 5, 6] : List ℚ)⟩ (Dim.full 2 3) .Column).ncols,
          (Matrix.mk ⟨2, 3, ([1, 2, 3, 4, 5, 6] : List ℚ)⟩ (Dim.full 2 3) .Column).nrows) := by
  refine ⟨by decide, by decide, by decide, by decide⟩

/-- C8 (amended): for every constructed nonempty matrix, the transposed
matrix's reported shape is the source's shape with the components swapped —
equivalently `(nrows(M), ncols(M))`, since those accessors are themselves
swapped on a constructed matrix. -/
theorem c8_transpose_shape (M : Matrix) (hM : M.Constructed) (h0 : M.vals ≠ []) :
    M.transpose.map Matrix.shape = some (M.shape.2, M.shape.1) ∧
      M.transpose.map Matrix.shape = some (M.nrows, M.ncols) := by
  obtain ⟨⟨R, C, d⟩, vdim, axis⟩ := M
  obtain ⟨hax, hvd, hlen⟩ := hM
  simp only [Matrix.vals] at h0 hlen
  simp only at hax hvd
  subst hax
  subst hvd
  rw [transpose_column_eq R C d hlen h0]
  simp [Matrix.shape, Matrix.nrows, Matrix.ncols, Dim.full, Dim.nrows, Dim.ncols]

/-- C8 witness. -/
theorem c8_transpose_shape_witness :
    (Matrix.mk ⟨2, 3, [1, 2, 3, 4, 5, 6]⟩ (Dim.full 2 3) .Column).transpose.map
          Matrix.shape =
        some ((Matrix.mk ⟨2, 3, ([1, 2, 3, 4, 5, 6] : List ℚ)⟩ (Dim.full 2 3)
            .Column).shape.2,
          (Matrix.mk ⟨2, 3, ([1, 2, 3, 4, 5, 6] : List ℚ)⟩ (Dim.full 2 3)
            .Column).shape.1) ∧
      (Matrix.mk ⟨2, 3, [1, 2, 3, 4, 5, 6]⟩ (Dim.full 2 3) .Column).transpose.map
          Matrix.shape =
        some ((Matrix.mk ⟨2, 3, ([1, 2, 3, 4, 5, 6] : List ℚ)⟩ (Dim.full 2 3)
            .Column).nrows,
          (Matrix.mk ⟨2, 3, ([1, 2, 3, 4, 5, 6] : List ℚ)⟩ (Dim.full 2 3)
            .Column).ncols) :=
  c8_transpose_shape _ (by decide) (by decide)

/-! C10: `set` and `get` resolve a coordinate to the same buffer position. -/

/-- C10: whenever the flat offset computed by `index(r, c)` lies inside the
buffer, `set(r, c, v)` succeeds and an immediately following `get(r, c)`
returns `Some v`: both operations resolve the coordinate through the same
`index` function, and `set` does not alter the fields `index` reads. -/
theorem c10_set_get_roundtrip (M : Matrix) (r c : Nat) (v : ℚ)
    (h : M.index r c < M.vals.length) :
    (M.set r c v).bind (fun M2 => M2.get r c) = some v := by
  unfold Matrix.set
  simp only [if_pos h, Option.some_bind]
  unfold Matrix.get
  simp only [Matrix.vals] at h ⊢
  have hidx : (Matrix.mk ⟨M.data.r, M.data.c, M.data.d.set (M.index r c) v⟩
      M.vdim M.axis).index r c = M.index r c := rfl
  have h2 : M.index r c < (M.data.d.set (M.index r c) v).length := by
    rw [List.length_set]; exact h
  rw [hidx, if_pos h2]
  simp [List.getElem?_set_self, h]

/-- C10 witness. -/
theorem c10_set_get_roundtrip_witness :
    ((Matrix.mk ⟨3, 3, [1, 2, 3, 4, 5, 6, 7, 8, 9]⟩ (Dim.full 3 3) .Column).set 1 2
        (99 : ℚ)).bind (fun M2 => M2.get 1 2) = some 99 :=
  c10_set_get_roundtrip _ 1 2 99 (by decide)

/-! Characterization of `diag`: the write loop succeeds and produces the
`diagBuf` buffer. -/

theorem diag_fold_eq (v : List ℚ) : ∀ (l : List Nat) (b : List ℚ),
    (∀ i ∈ l, i < v.length) → b.length = v.length * v.length →
    l.foldlM (fun M i => M.set i i (v.getD i 0))
        (Matrix.mk ⟨v.length, v.length, b⟩ (Dim.full v.length v.length) .Column) =
      some (Matrix.mk ⟨v.length, v.length,
          l.foldl (fun bb i => bb.set (i * v.length + i) (v.getD i 0)) b⟩
        (Dim.full v.length v.length) .Column) := by
  intro l
  induction l with
  | nil =>
      intro b hmem hlen
      simp
  | cons a t ih =>
      intro b hmem hlen
      have ha : a < v.length := hmem a (by simp)
      have hn : 0 < v.length := by omega
      have hidx : (Matrix.mk ⟨v.length, v.length, b⟩
          (Dim.full v.length v.length) .Column).index a a = a * v.length + a := by
        rw [index_column v.length v.length b a a hn, Nat.mod_eq_of_lt ha,
          Nat.div_eq_of_lt ha, Nat.add_zero]
      have hbound : a * v.length + a < b.length := by
        rw [hlen]
        have h1 : a * v.length + a < a * v.length + v.length := by omega
        have h2 : a * v.length + v.length = (a + 1) * v.length := by ring
        have h3 : (a + 1) * v.length ≤ v.length * v.length :=
          Nat.mul_le_mul_right _ (by omega)
        omega
      have hset : (Matrix.mk ⟨v.length, v.length, b⟩
          (Dim.full v.length v.length) .Column).set a a (v.getD a 0) =
          some (Matrix.mk ⟨v.length, v.length, b.set (a * v.length + a) (v.getD a 0)⟩
            (Dim.full v.length v.length) .Column) := by
        unfold Matrix.set
        simp only [Matrix.vals, hidx]
        rw [if_pos hbound]
      rw [List.foldlM_cons, hset, List.foldl_cons]
      have hbind : (some (Matrix.mk ⟨v.length, v.length,
            b.set (a * v.length + a) (v.getD a 0)⟩
            (Dim.full v.length v.length) .Column) >>=
          fun M2 => t.foldlM (fun M i => M.set i i (v.getD i 0)) M2) =
          t.foldlM (fun M i => M.set i i (v.getD i 0))
            (Matrix.mk ⟨v.length, v.length, b.set (a * v.length + a) (v.getD a 0)⟩
              (Dim.full v.length v.length) .Column) := rfl
      rw [hbind]
      exact ih _ (fun i hi => hmem i (List.mem_cons_of_mem a hi))
        (by rw [List.length_set]; exact hlen)

/-- Closed form of `Matrix.diag`. -/
theorem diag_eq (v : List ℚ) :
    Matrix.diag v = some (Matrix.mk ⟨v.length, v.length, diagBuf v⟩
      (Dim.full v.length v.length) .Column) := by
  unfold Matrix.diag diagBuf
  exact diag_fold_eq v (List.range v.length) _
    (fun i hi => List.mem_range.mp hi) (by simp)

/-! Value lemmas for the diagonal write loop. -/

theorem fold_set_length (v : List ℚ) : ∀ (l : List Nat) (b : List ℚ),
    (l.foldl (fun bb i => bb.set (i * v.length + i) (v.getD i 0)) b).length =
      b.length := by
  intro l
  induction l with
  | nil => intro b; rfl
  | cons a t ih =>
      intro b
      rw [List.foldl_cons, ih, List.length_set]

theorem fold_set_getElem_ne (v : List ℚ) : ∀ (l : List Nat) (b : List ℚ) (k : Nat),
    (∀ i ∈ l, i * v.length + i ≠ k) →
    (l.foldl (fun bb i => bb.set (i * v.length + i) (v.getD i 0)) b)[k]? = b[k]? := by
  intro l
  induction l with
  | nil => intro b k _; rfl
  | cons a t ih =>
      intro b k hk
      rw [List.foldl_cons, ih _ _ (fun i hi => hk i (List.mem_cons_of_mem a hi)),
        List.getElem?_set_ne (hk a (by simp))]

/-- The diagonal write positions `i * n + i` are pairwise distinct. -/
theorem diag_pos_inj (n m i : Nat) (h : m * n + m = i * n + i) : m = i := by
  have e1 : m * (n + 1) = m * n + m := by ring
  have e2 : i * (n + 1) = i * n + i := by ring
  have h2 : m * (n + 1) = i * (n + 1) := by rw [e1, e2]; exact h
  exact Nat.eq_of_mul_eq_mul_right (by omega) h2

/-- A diagonal write position never coincides with an in-range off-diagonal
cell offset `i * n + j`, `i` distinct from `j`. -/
theorem diag_pos_ne_offdiag (n m i j : Nat) (hm : m < n) (_hi : i < n) (hj : j < n)
    (hij : i ≠ j) : m * n + m ≠ i * n + j := by
  intro h
  have hn : 0 < n := by omega
  have h2 : n * m + m = n * i + j := by
    rw [Nat.mul_comm n m, Nat.mul_comm n i]; exact h
  have e1 : (n * m + m) % n = m % n := Nat.mul_add_mod n m m
  have e2 : (n * i + j) % n = j % n := Nat.mul_add_mod n i j
  have hmodeq : m % n = j % n := by rw [← e1, ← e2, h2]
  have hmj : m = j := by
    rwa [Nat.mod_eq_of_lt hm, Nat.mod_eq_of_lt hj] at hmodeq
  have d1 : (n * m + m) / n = m + m / n := Nat.mul_add_div hn m m
  have d2 : (n * i + j) / n = i + j / n := Nat.mul_add_div hn i j
  have hdiveq : m + m / n = i + j / n := by rw [← d1, ← d2, h2]
  rw [Nat.div_eq_of_lt hm, Nat.div_eq_of_lt hj] at hdiveq
  omega

theorem fold_set_getElem_mem (v : List ℚ) : ∀ (l : List Nat) (b : List ℚ) (i : Nat),
    i ∈ l → l.Nodup → i * v.length + i < b.length →
    (l.foldl (fun bb i => bb.set (i * v.length + i) (v.getD i 0)) b)[i * v.length + i]? =
      some (v.getD i 0) := by
  intro l
  induction l with
  | nil => intro b i hi; simp at hi
  | cons a t ih =>
      intro b i hi hnd hb
      obtain ⟨hat, hndt⟩ := List.nodup_cons.mp hnd
      rw [List.foldl_cons]
      rcases List.mem_cons.mp hi with rfl | hit
      · rw [fold_set_getElem_ne v t _ _ ?hne]
        · simp [List.getElem?_set_self, hb]
        case hne =>
          intro m hmt heq
          exact hat ((diag_pos_inj v.length m i heq) ▸ hmt)
      · exact ih _ i hit hndt (by rwa [List.length_set])

/-! C7: values of the diagonal matrix. -/

/-- C7: for every vector `v` of length `n` and in-range coordinates,
`diag(v)` succeeds, `get(i, i)` returns `v[i]`, and `get(i, j)` for
`i` distinct from `j` returns `0`. -/
theorem c7_diag_values (v : List ℚ) (i j : Nat) (hi : i < v.length)
    (hj : j < v.length) :
    (Matrix.diag v).bind (fun D => D.get i i) = some (v.getD i 0) ∧
      (i ≠ j → (Matrix.diag v).bind (fun D => D.get i j) = some 0) := by
  have hn : 0 < v.length := by omega
  have hdlen : (diagBuf v).length = v.length * v.length := by
    unfold diagBuf
    rw [fold_set_length, List.length_replicate]
  constructor
  · rw [diag_eq v]
    show (Matrix.mk ⟨v.length, v.length, diagBuf v⟩
        (Dim.full v.length v.length) .Column).get i i = some (v.getD i 0)
    have hidx : (Matrix.mk ⟨v.length, v.length, diagBuf v⟩
        (Dim.full v.length v.length) .Column).index i i = i * v.length + i := by
      rw [index_column v.length v.length _ i i hn, Nat.mod_eq_of_lt hi,
        Nat.div_eq_of_lt hi, Nat.add_zero]
    have hbound : i * v.length + i < v.length * v.length := by
      have h2 : i * v.length + v.length = (i + 1) * v.length := by ring
      have h3 : (i + 1) * v.length ≤ v.length * v.length :=
        Nat.mul_le_mul_right _ (by omega)
      omega
    unfold Matrix.get
    simp only [Matrix.vals, hidx]
    rw [if_pos (by rw [hdlen]; exact hbound)]
    unfold diagBuf
    rw [fold_set_getElem_mem v (List.range v.length) _ i (List.mem_range.mpr hi)
      (List.nodup_range _) (by rw [List.length_replicate]; exact hbound)]
  · intro hij
    rw [diag_eq v]
    show (Matrix.mk ⟨v.length, v.length, diagBuf v⟩
        (Dim.full v.length v.length) .Column).get i j = some 0
    have hidx : (Matrix.mk ⟨v.length, v.length, diagBuf v⟩
        (Dim.full v.length v.length) .Column).index i j = i * v.length + j := by
      rw [index_column v.length v.length _ i j hn, Nat.mod_eq_of_lt hi,
        Nat.div_eq_of_lt hi, Nat.add_zero]
    have hbound : i * v.length + j < v.length * v.length := by
      have h2 : i * v.length + v.length = (i + 1) * v.length := by ring
      have h3 : (i + 1) * v.length ≤ v.length * v.length :=
        Nat.mul_le_mul_right _ (by omega)
      omega
    unfold Matrix.get
    simp only [Matrix.vals, hidx]
    rw [if_pos (by rw [hdlen]; exact hbound)]
    unfold diagBuf
    rw [fold_set_getElem_ne v (List.range v.length) _ _ ?hne]
    · rw [List.getElem?_replicate, if_pos hbound]
    case hne =>
      intro m hm
      exact diag_pos_ne_offdiag v.length m i j (List.mem_range.mp hm) hi hj hij

/-- C7 witness. -/
theorem c7_diag_values_witness :
    (Matrix.diag [3, 7]).bind (fun D => D.get 0 0) = some 3 ∧
      (Matrix.diag [3, 7]).bind (fun D => D.get 0 1) = some 0 :=
  ⟨(c7_diag_values [3, 7] 0 1 (by decide) (by decide)).1,
    (c7_diag_values [3, 7] 0 1 (by decide) (by decide)).2 (by decide)⟩

/-! C9: the axis-dependent accessors swap the requested dimensions. -/

/-- C9: every constructor stores the requested `(nrow, ncol)` as the
physical dimensions and the full viewport, with default axis `Column`; under
that axis the accessor `nrows()` reports `ncol` and `ncols()` reports
`nrow`, while `shape()` reports `(nrow, ncol)` — so for `nrow` distinct from
`ncol`, `nrows()` disagrees with `shape().0`. -/
theorem c9_accessors_swapped :
    (∀ (d : List ℚ) (R C : Nat) (M : Matrix), Matrix.from_vec d R C = some M →
      M.nrows = C ∧ M.ncols = R ∧ M.shape = (R, C)) ∧
    (∀ (R C : Nat) (f : Nat → Nat → ℚ),
      (Matrix.from_fn R C f).nrows = C ∧ (Matrix.from_fn R C f).ncols = R ∧
        (Matrix.from_fn R C f).shape = (R, C)) ∧
    (∀ R C : Nat, (Matrix.unit R C).nrows = C ∧ (Matrix.unit R C).ncols = R ∧
      (Matrix.unit R C).shape = (R, C)) ∧
    (∀ R C : Nat, (Matrix.zero R C).nrows = C ∧ (Matrix.zero R C).ncols = R ∧
      (Matrix.zero R C).shape = (R, C)) ∧
    (∀ (v : List ℚ) (M : Matrix), Matrix.diag v = some M →
      M.nrows = v.length ∧ M.ncols = v.length ∧ M.shape = (v.length, v.length)) ∧
    (∀ (n : Nat) (M : Matrix), Matrix.eye n = some M →
      M.nrows = n ∧ M.ncols = n ∧ M.shape = (n, n)) := by
  have hdiag : ∀ (v : List ℚ) (M : Matrix), Matrix.diag v = some M →
      M.nrows = v.length ∧ M.ncols = v.length ∧ M.shape = (v.length, v.length) := by
    intro v M h
    rw [diag_eq v, Option.some.injEq] at h
    subst h
    simp [Matrix.nrows, Matrix.ncols, Matrix.shape, Dim.full, Dim.nrows, Dim.ncols]
  refine ⟨?_, ?_, ?_, ?_, hdiag, ?_⟩
  · intro d R C M h
    unfold Matrix.from_vec at h
    split at h
    · rw [Option.some.injEq] at h
      subst h
      simp [Matrix.nrows, Matrix.ncols, Matrix.shape, Dim.full, Dim.nrows, Dim.ncols]
    · exact absurd h (by simp)
  · intro R C f
    simp [Matrix.from_fn, Matrix.nrows, Matrix.ncols, Matrix.shape, Dim.full,
      Dim.nrows, Dim.ncols]
  · intro R C
    simp [Matrix.unit, Matrix.nrows, Matrix.ncols, Matrix.shape, Dim.full,
      Dim.nrows, Dim.ncols]
  · intro R C
    simp [Matrix.zero, Matrix.nrows, Matrix.ncols, Matrix.shape, Dim.full,
      Dim.nrows, Dim.ncols]
  · intro n M h
    unfold Matrix.eye at h
    have := hdiag (List.replicate n 1) M h
    rwa [List.length_replicate] at this

/-- C9 witness. -/
theorem c9_accessors_swapped_witness :
    (Matrix.mk ⟨2, 3, [1, 2, 3, 4, 5, 6]⟩ (Dim.full 2 3) .Column).nrows = 3 ∧
      (Matrix.mk ⟨2, 3, [1, 2, 3, 4, 5, 6]⟩ (Dim.full 2 3) .Column).ncols = 2 ∧
      (Matrix.mk ⟨2, 3, [1, 2, 3, 4, 5, 6]⟩ (Dim.full 2 3) .Column).shape = (2, 3) :=
  c9_accessors_swapped.1 [1, 2, 3, 4, 5, 6] 2 3 _ (by decide)

/-! C6: the argmax reduction on vectors. -/

theorem foldl_max_init_le (l : List ℚ) : ∀ a : ℚ, a ≤ l.foldl (fun x y => max x y) a := by
  induction l with
  | nil => intro a; exact le_refl a
  | cons b t ih =>
      intro a
      calc a ≤ max a b := le_max_left a b
        _ ≤ t.foldl (fun x y => max x y) (max a b) := ih (max a b)

theorem mem_le_foldl_max (l : List ℚ) : ∀ (a x : ℚ), x ∈ l →
    x ≤ l.foldl (fun x y => max x y) a := by
  induction l with
  | nil => intro a x hx; simp at hx
  | cons b t ih =>
      intro a x hx
      rcases List.mem_cons.mp hx with rfl | hxt
      · calc x ≤ max a x := le_max_right a x
          _ ≤ t.foldl (fun x y => max x y) (max a x) := foldl_max_init_le t _
      · exact ih (max a b) x hxt

theorem foldl_max_mem (l : List ℚ) : ∀ a : ℚ,
    l.foldl (fun x y => max x y) a = a ∨ l.foldl (fun x y => max x y) a ∈ l := by
  induction l with
  | nil => intro a; left; rfl
  | cons b t ih =>
      intro a
      rcases ih (max a b) with heq | hmem
      · rw [List.foldl_cons, heq]
        rcases max_choice a b with h | h
        · left; exact h
        · right; rw [h]; exact List.mem_cons_self b t
      · right
        exact List.mem_cons_of_mem b hmem

theorem position_of_mem (y : ℚ) : ∀ l : List ℚ, y ∈ l →
    ∃ i, position (fun x => x == y) l = some i ∧ i < l.length ∧ l.getD i 0 = y := by
  intro l
  induction l with
  | nil => intro h; simp at h
  | cons a t ih =>
      intro h
      by_cases hay : a = y
      · refine ⟨0, ?_, by simp, by simp [hay]⟩
        unfold position
        rw [if_pos (by simp [hay])]
      · have hyt : y ∈ t := by
          rcases List.mem_cons.mp h with rfl | hyt
          · exact absurd rfl hay
          · exact hyt
        obtain ⟨i, hpos, hlt, hval⟩ := ih hyt
        refine ⟨i + 1, ?_, by simp; omega, by simpa using hval⟩
        unfold position
        rw [if_neg (by simp [hay]), hpos]
        rfl

/-- C6: `argmax_position` (source name `argsort`).  On every nonempty
vector whose entries are at least `f32::MIN` (every finite `f32` is), it
succeeds and the returned index points at a maximum-valued element; on
`[3,1,4,1,5,9,2,6]` it returns `5`, the index of `9`; on the empty vector
the `unwrap` of `position` fails (panic, the spec's `EmptyInputError`). -/
theorem c6_argmax :
    (∀ v : Vector, v.data ≠ [] → (∀ x ∈ v.data, fMinValue ≤ x) →
      v.argsort.isSome = true ∧ v.argsort.getD 0 < v.data.length ∧
        ∀ k, k < v.data.length → v.data.getD k 0 ≤ v.data.getD (v.argsort.getD 0) 0) ∧
    (Vector.mk [3, 1, 4, 1, 5, 9, 2, 6]).argsort = some 5 ∧
    (Vector.mk []).argsort = none := by
  refine ⟨?_, by decide, by decide⟩
  intro v hne hbound
  set m := v.data.foldl (fun x y => max x y) fMinValue with hm
  have hmmem : m ∈ v.data := by
    rcases foldl_max_mem v.data fMinValue with heq | hmem
    · obtain ⟨x0, hx0⟩ := List.exists_mem_of_ne_nil v.data hne
      have h1 : x0 ≤ m := mem_le_foldl_max v.data fMinValue x0 hx0
      have h2 : fMinValue ≤ x0 := hbound x0 hx0
      have : x0 = m := le_antisymm h1 (by rw [← hm] at heq; rw [heq]; exact h2)
      rw [← this]
      exact hx0
    · exact hmem
  obtain ⟨i, hpos, hlt, hval⟩ := position_of_mem m v.data hmmem
  have hargs : v.argsort = some i := by
    unfold Vector.argsort
    rw [← hm, hpos]
  rw [hargs]
  refine ⟨rfl, by simpa using hlt, ?_⟩
  intro k hk
  show v.data.getD k 0 ≤ v.data.getD i 0
  rw [hval]
  have hkmem : v.data.getD k 0 ∈ v.data := by
    rw [List.getD_eq_getElem v.data 0 hk]
    exact List.getElem_mem hk
  exact mem_le_foldl_max v.data fMinValue _ hkmem

/-- C6 witness. -/
theorem c6_argmax_witness :
    (Vector.mk [3, 1, 4, 1, 5, 9, 2, 6]).argsort.isSome = true :=
  (c6_argmax.1 (Vector.mk [3, 1, 4, 1, 5, 9, 2, 6]) (by decide) (by decide)).1

/-- The numeral used for `fMinValue` is exactly `-(2^128 - 2^104)`, the
value of `f32::MIN`. -/
theorem fMinValue_eq : fMinValue = -(2 ^ 128 - 2 ^ 104) := by
  norm_num [fMinValue]

/-! C4: the traversal order of matrix-wide iteration. -/

theorem runIter_succ (fuel : Nat) (s s2 : MatIntoIterator) (v : ℚ)
    (h : s.next = (some v, s2)) : runIter (fuel + 1) s = v :: runIter fuel s2 := by
  show (match s.next with
    | (none, _) => []
    | (some v2, s1) => v2 :: runIter fuel s1) = v :: runIter fuel s2
  rw [h]

theorem runIter_stop (fuel : Nat) (s s2 : MatIntoIterator)
    (h : s.next = (none, s2)) : runIter (fuel + 1) s = [] := by
  unfold runIter
  rw [h]

theorem Dim_full_nrows (R C : Nat) : (Dim.full R C).nrows = R := by
  simp [Dim.full, Dim.nrows]

theorem Dim_full_ncols (R C : Nat) : (Dim.full R C).ncols = C := by
  simp [Dim.full, Dim.ncols]

/-- One iterator step inside the viewport: yields the current cell and
advances the row position, wrapping to the next column at the last row. -/
theorem next_yield (R C : Nat) (d : List ℚ) (i j : Nat) (hd : d.length = R * C)
    (hi : i < R) (hj : j < C) :
    MatIntoIterator.next ⟨Matrix.mk ⟨R, C, d⟩ (Dim.full R C) .Column, (i, j)⟩ =
      (some ((Matrix.mk ⟨R, C, d⟩ (Dim.full R C) .Column).elem i j),
        ⟨Matrix.mk ⟨R, C, d⟩ (Dim.full R C) .Column,
          if i + 1 ≥ R then (0, j + 1) else (i + 1, j)⟩) := by
  unfold MatIntoIterator.next
  simp only [Dim_full_ncols, Dim_full_nrows]
  rw [if_neg (by omega), get_column_eq R C d i j hd hi hj]
  by_cases hlast : i + 1 ≥ R
  · rw [if_pos hlast, if_pos hlast]
  · rw [if_neg hlast, if_neg hlast]

/-- The iterator ends as soon as the column position reaches `ncols`. -/
theorem next_done (R C : Nat) (d : List ℚ) (i j : Nat) (hj : j ≥ C) :
    MatIntoIterator.next ⟨Matrix.mk ⟨R, C, d⟩ (Dim.full R C) .Column, (i, j)⟩ =
      (none, ⟨Matrix.mk ⟨R, C, d⟩ (Dim.full R C) .Column, (i, j)⟩) := by
  unfold MatIntoIterator.next
  simp only [Dim_full_ncols]
  rw [if_pos (by omega)]

/-- Running the iterator down the remainder of one column: starting at row
`R - (dc + 1)` of column `j`, it yields that column's remaining cells in
increasing row order and then stands at the top of column `j + 1`. -/
theorem runIter_inner (R C : Nat) (d : List ℚ) (hd : d.length = R * C)
    (j : Nat) (hj : j < C) : ∀ (dc : Nat), dc + 1 ≤ R → ∀ f : Nat,
    runIter (dc + 1 + f)
        ⟨Matrix.mk ⟨R, C, d⟩ (Dim.full R C) .Column, (R - (dc + 1), j)⟩ =
      (List.range' (R - (dc + 1)) (dc + 1)).map
          (fun i => (Matrix.mk ⟨R, C, d⟩ (Dim.full R C) .Column).elem i j) ++
        runIter f ⟨Matrix.mk ⟨R, C, d⟩ (Dim.full R C) .Column, (0, j + 1)⟩ := by
  intro dc
  induction dc with
  | zero =>
      intro hdc f
      have hi : R - (0 + 1) < R := by omega
      have hstep : MatIntoIterator.next
          ⟨Matrix.mk ⟨R, C, d⟩ (Dim.full R C) .Column, (R - (0 + 1), j)⟩ =
          (some ((Matrix.mk ⟨R, C, d⟩ (Dim.full R C) .Column).elem (R - (0 + 1)) j),
            ⟨Matrix.mk ⟨R, C, d⟩ (Dim.full R C) .Column, (0, j + 1)⟩) := by
        rw [next_yield R C d (R - (0 + 1)) j hd hi hj, if_pos (by omega)]
      have hfuel : 0 + 1 + f = f + 1 := by omega
      rw [hfuel, runIter_succ f _ _ _ hstep]
      rw [List.range'_succ, List.range'_zero, List.map_cons, List.map_nil,
        List.cons_append, List.nil_append]
  | succ dc ih =>
      intro hdc f
      have hi : R - (dc + 1 + 1) < R := by omega
      have hwrap : ¬ (R - (dc + 1 + 1) + 1 ≥ R) := by omega
      have hnext : R - (dc + 1 + 1) + 1 = R - (dc + 1) := by omega
      have hstep : MatIntoIterator.next
          ⟨Matrix.mk ⟨R, C, d⟩ (Dim.full R C) .Column, (R - (dc + 1 + 1), j)⟩ =
          (some ((Matrix.mk ⟨R, C, d⟩ (Dim.full R C) .Column).elem (R - (dc + 1 + 1)) j),
            ⟨Matrix.mk ⟨R, C, d⟩ (Dim.full R C) .Column, (R - (dc + 1), j)⟩) := by
        rw [next_yield R C d (R - (dc + 1 + 1)) j hd hi hj, if_neg hwrap, hnext]
      have hfuel : dc + 1 + 1 + f = (dc + 1 + f) + 1 := by omega
      rw [hfuel, runIter_succ (dc + 1 + f) _ _ _ hstep]
      rw [ih (by omega) f]
      have hrange : List.range' (R - (dc + 1 + 1)) (dc + 1 + 1) =
          (R - (dc + 1 + 1)) :: List.range' (R - (dc + 1)) (dc + 1) := by
        rw [List.range'_succ, hnext]
      rw [hrange, List.map_cons, List.cons_append]

/-- Running the iterator from the top of column `C - k` with exactly enough
fuel yields the remaining columns one after another, each in increasing row
order. -/
theorem runIter_outer (R C : Nat) (d : List ℚ) (hd : d.length = R * C)
    (hR : 1 ≤ R) : ∀ k, k ≤ C →
    runIter (k * R + 1) ⟨Matrix.mk ⟨R, C, d⟩ (Dim.full R C) .Column, (0, C - k)⟩ =
      (List.range' (C - k) k).flatMap
        (fun j => (List.range R).map
          (fun i => (Matrix.mk ⟨R, C, d⟩ (Dim.full R C) .Column).elem i j)) := by
  intro k
  induction k with
  | zero =>
      intro _
      rw [show 0 * R + 1 = 0 + 1 by omega,
        runIter_stop 0 _ _ (next_done R C d 0 (C - 0) (by omega))]
      simp
  | succ k ih =>
      intro hk
      have hj : C - (k + 1) < C := by omega
      have hfuel : (k + 1) * R + 1 = (R - 1) + 1 + (k * R + 1) := by
        have : (k + 1) * R = k * R + R := by ring
        omega
      have hstart : R - (R - 1 + 1) = 0 := by omega
      have hcol : C - (k + 1) + 1 = C - k := by omega
      rw [hfuel]
      have hinner := runIter_inner R C d hd (C - (k + 1)) hj (R - 1) (by omega)
        (k * R + 1)
      rw [hstart] at hinner
      rw [hinner, hcol, ih (by omega)]
      have hrange : List.range' (C - (k + 1)) (k + 1) =
          (C - (k + 1)) :: List.range' (C - k) k := by
        rw [List.range'_succ, hcol]
      rw [hrange, List.flatMap_cons]
      have hR1 : R - 1 + 1 = R := by omega
      rw [hR1, List.range_eq_range']

/-- C4 (amended): matrix-wide iteration traverses the logical coordinates
with the ROW index varying fastest (column-by-column order), yielding
`get(0,0), get(1,0), ..., get(R-1,0), get(0,1), ...` — not row-major
order.  Stated for every constructed matrix with at least one row; the
second conjunct identifies each yielded value with the corresponding
`get`. -/
theorem c4_iteration_col_major (M : Matrix) (hM : M.Constructed)
    (hR : 1 ≤ M.data.r) :
    M.toList = (List.range M.data.c).flatMap
        (fun j => (List.range M.data.r).map (fun i => M.elem i j)) ∧
      ∀ i, i < M.data.r → ∀ j, j < M.data.c → M.get i j = some (M.elem i j) := by
  obtain ⟨⟨R, C, dd⟩, vdim, axis⟩ := M
  obtain ⟨hax, hvd, hlen⟩ := hM
  simp only [Matrix.vals] at hlen
  simp only at hax hvd hR ⊢
  subst hax
  subst hvd
  constructor
  · unfold Matrix.toList
    have hfuel : (Dim.full R C).nrows * (Dim.full R C).ncols + 1 = C * R + 1 := by
      simp [Dim.full, Dim.nrows, Dim.ncols]
      ring
    rw [hfuel]
    have houter := runIter_outer R C dd hlen hR C (le_refl C)
    rw [Nat.sub_self] at houter
    rw [houter, ← List.range_eq_range']
  · intro i hi j hj
    exact get_column_eq R C dd i j hlen hi hj

/-- C4 witness. -/
theorem c4_iteration_col_major_witness :
    (Matrix.mk ⟨3, 3, [1, 2, 3, 4, 5, 6, 7, 8, 9]⟩ (Dim.full 3 3) .Column).toList =
      (List.range 3).flatMap
        (fun j => (List.range 3).map
          (fun i => (Matrix.mk ⟨3, 3, ([1, 2, 3, 4, 5, 6, 7, 8, 9] : List ℚ)⟩
            (Dim.full 3 3) .Column).elem i j)) :=
  (c4_iteration_col_major _ (by decide) (by decide)).1

/-- C4 counterexample: iterating the 3 by 3 matrix built from `[1..9]`
yields `1,4,7,2,5,8,3,6,9` — the row index varies fastest — and not the
claimed row-major sequence `1,2,...,9`. -/
theorem c4_iteration_order_counterexample :
    Matrix.from_vec [1, 2, 3, 4, 5, 6, 7, 8, 9] 3 3 =
        some (Matrix.mk ⟨3, 3, [1, 2, 3, 4, 5, 6, 7, 8, 9]⟩ (Dim.full 3 3) .Column) ∧
      (Matrix.mk ⟨3, 3, [1, 2, 3, 4, 5, 6, 7, 8, 9]⟩ (Dim.full 3 3) .Column).toList =
        [1, 4, 7, 2, 5, 8, 3, 6, 9] ∧
      (Matrix.mk ⟨3, 3, [1, 2, 3, 4, 5, 6, 7, 8, 9]⟩ (Dim.full 3 3) .Column).toList ≠
        [1, 2, 3, 4, 5, 6, 7, 8, 9] := by
  refine ⟨by decide, by decide, by decide⟩

end Rusmat
